import Mathlib

/-!
Verification of the model-conversion pipeline of this repository (src/app.py):
archive-name parsing, resolution of the external compiler's output file,
label extraction from a generated C header, subprocess outcome handling,
the orchestration order of run_conversion, and Manifest packaging.

Strings are modelled as lists of characters (`Str`).  Each definition is a
direct embedding of the corresponding Python code; the filesystem is modelled
as an explicit list of paths (existence = membership) and file contents as an
association list from paths to contents.
-/

namespace WildlifeConv

abbrev Str := List Char

/-- Embeds os.path.basename: the part of the path after the last slash. -/
def basename (p : Str) : Str :=
  (p.reverse.takeWhile (fun c => c != '/')).reverse

/-- Python s.endswith(suf). -/
def endsWith (suf s : Str) : Bool :=
  decide (suf.length ≤ s.length ∧ s.drop (s.length - suf.length) = suf)

/-- Strip an exact leading occurrence of the first list from the second,
char by char; none when the second list does not start with the first. -/
def stripPrefixL : Str → Str → Option Str
  | [], s => some s
  | _ :: _, [] => none
  | p :: ps, c :: cs => if p = c then stripPrefixL ps cs else none

/-- Split at the first occurrence of sep: Python base.split(sep, 1) restricted
to the case where sep occurs in base (none when it does not occur). -/
def splitOnce (sep : Str) : Str → Option (Str × Str)
  | [] => none
  | c :: rest =>
    match stripPrefixL sep (c :: rest) with
    | some r => some ([], r)
    | none => (splitOnce sep rest).map (fun q => (c :: q.1, q.2))

def sepC : Str := "-custom-".toList

def zipExt : Str := ".zip".toList

/-- Embeds the body of parse_model_zip_name (src/app.py lines 15-26) after the
basename step: suffix check, strip ".zip", split on the first "-custom-",
reject empty segments.  Errors carry the raised ValueError messages. -/
def parse_core (name : Str) : Except Str (Str × Str) :=
  if endsWith zipExt name then
    match splitOnce sepC (name.take (name.length - 4)) with
    | none => .error "Filename must contain -custom- (e.g. mymodel-custom-v10.zip)".toList
    | some (m, v) =>
      if m = [] ∨ v = [] then
        .error "Invalid filename segments before/after -custom-".toList
      else .ok (m, v)
  else .error "Zip file must end with .zip".toList

/-- Embeds parse_model_zip_name: basename, then the checks of parse_core. -/
def parse_model_zip_name (zipPath : Str) : Except Str (Str × Str) :=
  parse_core (basename zipPath)

/-- The base name of the candidate zip path: basename with ".zip" stripped. -/
def baseOf (p : Str) : Str :=
  (basename p).take ((basename p).length - 4)

def isErr : Except Str (Str × Str) → Bool
  | .error _ => true
  | .ok _ => false

/-- Number of positions of s at which pat occurs (as a contiguous sublist). -/
def countOcc (pat : Str) : Str → Nat
  | [] => if (stripPrefixL pat []).isSome then 1 else 0
  | c :: rest => (if (stripPrefixL pat (c :: rest)).isSome then 1 else 0) + countOcc pat rest

/-- Embeds pathlib .stem on a file name: drop the last dot and what follows,
unless the only dot is the leading character or there is no dot at all. -/
def rdropExt (name : Str) : Str :=
  match name.reverse.dropWhile (fun c => c != '.') with
  | [] => name
  | _ :: rest => if rest = [] then name else rest.reverse

def stemOf (p : Str) : Str := rdropExt (basename p)

/-- Path join work_dir / name. -/
def joinP (dir name : Str) : Str := dir ++ '/' :: name

/-- The ordered candidate output names of find_vela_output (src/app.py 45-49). -/
def velaCandidates (workDir orig : Str) : List Str :=
  [joinP workDir (stemOf orig ++ "_vela.tflite".toList),
   joinP workDir "MOD00001.tfl".toList,
   joinP workDir "output.tflite".toList]

/-- Embeds find_vela_output (src/app.py lines 35-63).  The filesystem is the
list fs of existing paths (existence = membership).  Returns the resolved path
together with the ambiguous-overwrite warning flag (true exactly when the
st.warning fallback of line 60 fired), or the candidate list of the raised
FileNotFoundError. -/
def find_vela_output (fs : List Str) (workDir orig : Str) :
    Except (List Str) (Str × Bool) :=
  match (velaCandidates workDir orig).find? (fun p => fs.contains p) with
  | some p => .ok (p, false)
  | none =>
    if fs.contains (joinP workDir orig) then .ok (joinP workDir orig, true)
    else .error (velaCandidates workDir orig)

/-- Characters matched by the regex class backslash-s on the ASCII range. -/
def isPySpace (c : Char) : Bool :=
  c == ' ' || c == '\t' || c == '\n' || c == '\r' || c == Char.ofNat 11 || c == Char.ofNat 12

def obrace : Char := Char.ofNat 123

def cbrace : Char := Char.ofNat 125

def dquote : Char := Char.ofNat 34

/-- Lazy capture of the regex group up to the first closing-brace-semicolon
two-character sequence; none when that sequence never occurs. -/
def captureTo : Str → Option Str
  | [] => none
  | [_] => none
  | c :: d :: rest =>
    if c = cbrace ∧ d = ';' then some []
    else (captureTo (d :: rest)).map (fun g => c :: g)

/-- After an equals sign: greedy whitespace run, an opening brace, then the
lazy capture.  The greedy run is forced since the brace is not whitespace. -/
def matchAssign (s : Str) : Option Str :=
  match s.dropWhile isPySpace with
  | c :: rest => if c = obrace then captureTo rest else none
  | [] => none

/-- The lazy gap between the declared name and the first equals sign whose
continuation matches; scanning onward realizes regex backtracking. -/
def matchTail : Str → Option Str
  | [] => none
  | c :: rest =>
    match (if c = '=' then matchAssign rest else none) with
    | some g => some g
    | none => matchTail rest

def constCharStar : Str := "const char*".toList

def catName : Str := "ei_classifier_inferencing_categories".toList

/-- One attempt of the declaration regex at the current position. -/
def matchAt (s : Str) : Option Str :=
  match stripPrefixL constCharStar s with
  | none => none
  | some s1 =>
    match stripPrefixL catName (s1.dropWhile isPySpace) with
    | none => none
    | some s2 => matchTail s2

/-- Embeds re.search of the declaration regex (src/app.py line 141) with
re.DOTALL: leftmost match wins and the lazy groups take the shortest text;
returns the captured initializer body. -/
def findDecl : Str → Option Str
  | [] => none
  | c :: rest =>
    match matchAt (c :: rest) with
    | some g => some g
    | none => findDecl rest

/-- Embeds re.findall of the quoted-literal regex on the captured group
(src/app.py line 143): scans left to right collecting each maximal nonempty
run of non-quote characters enclosed in double quotes.  State none is outside
a potential literal; state some acc holds the reversed body read since the
last opening quote. -/
def findQuotedAux : Str → Option Str → List Str
  | [], _ => []
  | c :: rest, none =>
    if c = dquote then findQuotedAux rest (some []) else findQuotedAux rest none
  | c :: rest, some acc =>
    if c = dquote then
      if acc = [] then findQuotedAux rest (some [])
      else acc.reverse :: findQuotedAux rest none
    else findQuotedAux rest (some (c :: acc))

def findQuoted (s : Str) : List Str := findQuotedAux s none

/-- Embeds the label-extraction step of run_conversion (src/app.py 137-148):
a missing declaration and a declaration whose body yields no literals both
collapse to labels = [], which raises the one RuntimeError; the single error
value models that shared failure kind. -/
def extract_labels (content : Str) : Except Unit (List Str) :=
  let labels :=
    match findDecl content with
    | some g => findQuoted g
    | none => ([] : List Str)
  if labels = [] then .error () else .ok labels

/-- Renders an initializer body: the labels as double-quoted literals
separated by comma and space. -/
def joinQuoted : List Str → Str
  | [] => []
  | [l] => dquote :: l ++ [dquote]
  | l :: ls => dquote :: l ++ dquote :: ',' :: ' ' :: joinQuoted ls

/-- Renders a complete declaration header around the given labels. -/
def mkHeader (ls : List Str) : Str :=
  constCharStar ++ ' ' :: catName ++ "[] = ".toList ++
    obrace :: joinQuoted ls ++ [cbrace, ';']

def exHeader : Str :=
  "const char* ei_classifier_inferencing_categories[] = \x7b\"cat\", \"dog\", \"fish\"\x7d;".toList

def exHeaderMultiline : Str :=
  "// generated\nstatic const int n = 3;\nconst char* ei_classifier_inferencing_categories[] =\n  \x7b\"cat\",\n   \"dog\"\x7d;\n".toList

def exHeaderEmptyBody : Str :=
  "const char* ei_classifier_inferencing_categories[] = \x7b \x7d;".toList

def exNoDecl : Str := "int main() \x7b return 0; \x7d".toList

/-- Outcome of the subprocess.run call for the vela command (src/app.py 115):
exit code 0, a non-zero exit (CalledProcessError under check=True), a missing
binary (FileNotFoundError), or exceeding the timeout (TimeoutExpired). -/
inductive VelaOutcome
  | success (stdout stderr : Str)
  | nonzeroExit (rc : Int) (stdout stderr : Str)
  | notFound
  | timeout
deriving DecidableEq

/-- The subprocess invocation parameters of src/app.py lines 106-115. -/
structure SubprocessSpec where
  program : Str
  args : List Str
  captureOutput : Bool
  check : Bool
  timeoutSeconds : Nat

def velaCall (workDir tflitePath : Str) : SubprocessSpec :=
  { program := "vela".toList
  , args := ["--accelerator-config".toList, "ethos-u55-64".toList,
             "--memory-mode".toList, "Shared_Sram".toList,
             "--output-dir".toList, workDir, tflitePath]
  , captureOutput := true
  , check := true
  , timeoutSeconds := 120 }

/-- What run_conversion's control flow hands back for each subprocess outcome
(src/app.py 114-126): proceed on success, return None from each of the two
except clauses, and let any other exception (TimeoutExpired) escape uncaught. -/
inductive VelaReturn
  | proceed
  | returnedNone
  | uncaughtException
deriving DecidableEq

def vela_return : VelaOutcome → VelaReturn
  | .success _ _ => .proceed
  | .nonzeroExit _ _ _ => .returnedNone
  | .notFound => .returnedNone
  | .timeout => .uncaughtException

/-- The diagnostic texts the handler emits to the UI observer for each
outcome (the st.code / st.warning / st.error calls of src/app.py 116-125);
the uncaught TimeoutExpired emits nothing from inside run_conversion. -/
def vela_messages : VelaOutcome → List Str
  | .success out err =>
      if err = [] then [out] else [out, "Vela stderr:\n".toList ++ err]
  | .nonzeroExit rc out err =>
      ["Vela conversion FAILED. Return code: ".toList ++ (toString rc).toList,
       "Stdout:\n".toList ++ out,
       "Stderr:\n".toList ++ err]
  | .notFound =>
      ["Vela command not found. This app is likely not deployed correctly.".toList]
  | .timeout => []

/-- Pipeline events of run_conversion in program order. -/
inductive Event
  | savedUpload
  | parsedName
  | extractedArchive
  | checkedTflite
  | checkedVarsH
  | ranVela
  | resolvedOutput
  | movedOutput
  | extractedLabels
  | wroteLabels
  | packaged
deriving DecidableEq

/-- The exception kinds run_conversion can raise to its caller. -/
inductive PErr
  | invalidName (msg : Str)
  | missingInput (path : Str)
  | timeoutExpired
  | outputNotFound (cands : List Str)
  | noLabels
deriving DecidableEq

/-- How run_conversion terminates: a returned artifact path, the caught-error
return of None, or an uncaught exception. -/
inductive Outcome
  | finished (manifestZip : Str)
  | returnedNone
  | raised (e : PErr)
deriving DecidableEq

/-- The environment outside run_conversion's control: the uploaded file name,
the relative paths the archive extracts to, the content of the variables
header, the subprocess outcome, and the files the compiler writes. -/
structure Env where
  uploadName : Str
  extractedFiles : List Str
  varsContent : Str
  velaOutcome : VelaOutcome
  velaWrites : List Str

def tfliteRel : Str := "trained.tflite".toList

def varsRel : Str := "model-parameters/model_variables.h".toList

/-- The work directory work/<model>-custom-<version> of src/app.py 85-86 (the
enclosing temporary directory is left implicit). -/
def workDirOf (mn ver : Str) : Str :=
  joinP "work".toList (mn ++ sepC ++ ver)

/-- The pipeline tail from the vela invocation on (src/app.py 114-172). -/
def stepsAfterChecks (env : Env) (workDir : Str) : List Event × Outcome :=
  let ev1 : List Event := [.savedUpload, .parsedName, .extractedArchive,
    .checkedTflite, .checkedVarsH, .ranVela]
  match env.velaOutcome with
  | .nonzeroExit _ _ _ => (ev1, .returnedNone)
  | .notFound => (ev1, .returnedNone)
  | .timeout => (ev1, .raised .timeoutExpired)
  | .success _ _ =>
    match find_vela_output ((env.extractedFiles ++ env.velaWrites).map (joinP workDir))
        workDir tfliteRel with
    | .error cands => (ev1 ++ [.resolvedOutput], .raised (.outputNotFound cands))
    | .ok _ =>
      match extract_labels env.varsContent with
      | .error _ =>
          (ev1 ++ [.resolvedOutput, .movedOutput, .extractedLabels], .raised .noLabels)
      | .ok _ =>
          (ev1 ++ [.resolvedOutput, .movedOutput, .extractedLabels, .wroteLabels,
            .packaged], .finished (joinP workDir "Manifest.zip".toList))

/-- Embeds the control flow of run_conversion (src/app.py 68-172) over the
abstract environment: events are recorded in the order the corresponding
statements execute; the outcome is the returned path, the returned None, or
the raised exception. -/
def run_conversion (env : Env) : List Event × Outcome :=
  match parse_model_zip_name env.uploadName with
  | .error m => ([.savedUpload], .raised (.invalidName m))
  | .ok mv =>
    if env.extractedFiles.contains tfliteRel then
      if env.extractedFiles.contains varsRel then
        stepsAfterChecks env (workDirOf mv.1 mv.2)
      else ([.savedUpload, .parsedName, .extractedArchive, .checkedTflite],
        .raised (.missingInput (joinP (workDirOf mv.1 mv.2) varsRel)))
    else ([.savedUpload, .parsedName, .extractedArchive],
      .raised (.missingInput (joinP (workDirOf mv.1 mv.2) tfliteRel)))

def manifestPre : Str := "Manifest/".toList

def labelsTxtRel : Str := "labels.txt".toList

/-- Writing a file into the work-directory store (a path-to-content
association list: a write shadows any previous entry for the same path). -/
def setFile (st : List (Str × Str)) (p c : Str) : List (Str × Str) :=
  (p, c) :: st.filter (fun e => !(e.1 == p))

def canonicalModelName (mn ver : Str) : Str :=
  mn ++ sepC ++ ver ++ "_vela.tflite".toList

/-- Embeds the packaging steps of run_conversion (src/app.py 150-165) on the
work-directory store: write labels.txt as the newline-join of the labels,
then copy the canonical model file and labels.txt under Manifest/. -/
def package (st : List (Str × Str)) (canonName modelBytes : Str)
    (labels : List Str) : List (Str × Str) :=
  setFile
    (setFile (setFile st labelsTxtRel (List.intercalate ['\n'] labels))
      (manifestPre ++ canonName) modelBytes)
    (manifestPre ++ labelsTxtRel) (List.intercalate ['\n'] labels)

/-- The entries shutil.make_archive with base_dir Manifest puts into
Manifest.zip: every stored file under the Manifest/ directory. -/
def manifestEntries (st : List (Str × Str)) : List (Str × Str) :=
  st.filter (fun e => manifestPre.isPrefixOf e.1)

theorem stripPrefixL_append (p r : Str) : stripPrefixL p (p ++ r) = some r := by
  induction p with
  | nil => rfl
  | cons c ps ih => simp [stripPrefixL, ih]

theorem stripPrefixL_eq_some {p s r : Str} (h : stripPrefixL p s = some r) :
    s = p ++ r := by
  induction p generalizing s with
  | nil => simpa [stripPrefixL] using h
  | cons c ps ih =>
    cases s with
    | nil => simp [stripPrefixL] at h
    | cons a as =>
      by_cases hca : c = a
      · subst hca
        simp only [stripPrefixL, if_pos rfl] at h
        simpa using ih h
      · simp [stripPrefixL, hca] at h

theorem splitOnce_eq_some {sep s l r : Str} (h : splitOnce sep s = some (l, r)) :
    s = l ++ sep ++ r ∧ ∀ l' r', s = l' ++ sep ++ r' → l.length ≤ l'.length := by
  induction s generalizing l r with
  | nil => simp [splitOnce] at h
  | cons c rest ih =>
    rw [splitOnce] at h
    cases hsp : stripPrefixL sep (c :: rest) with
    | some r0 =>
      rw [hsp] at h
      simp only [Option.some.injEq, Prod.mk.injEq] at h
      obtain ⟨hl, hr⟩ := h
      subst hl; subst hr
      refine ⟨by simpa using stripPrefixL_eq_some hsp, ?_⟩
      intro l' r' _
      exact Nat.zero_le _
    | none =>
      rw [hsp] at h
      simp only [Option.map_eq_some'] at h
      obtain ⟨⟨l0, r0⟩, hrec, heq⟩ := h
      simp only [Prod.mk.injEq] at heq
      obtain ⟨hl, hr⟩ := heq
      subst hr
      obtain ⟨hdec, hmin⟩ := ih hrec
      constructor
      · rw [← hl]
        simp [hdec]
      · intro l' r' hd
        cases l' with
        | nil =>
          exfalso
          simp only [List.nil_append] at hd
          rw [hd, stripPrefixL_append] at hsp
          exact Option.noConfusion hsp
        | cons c' l'' =>
          simp only [List.cons_append, List.cons.injEq] at hd
          obtain ⟨_, hd2⟩ := hd
          have := hmin l'' r' hd2
          rw [← hl]
          simpa using this

theorem splitOnce_ne_none {sep l r : Str} (hsep : sep ≠ []) :
    splitOnce sep (l ++ sep ++ r) ≠ none := by
  induction l with
  | nil =>
    obtain ⟨a, as, rfl⟩ : ∃ a as, sep = a :: as := by
      cases sep with
      | nil => exact absurd rfl hsep
      | cons a as => exact ⟨a, as, rfl⟩
    intro h
    simp only [List.nil_append, List.cons_append] at h
    rw [splitOnce] at h
    have hsp : stripPrefixL (a :: as) (a :: (as ++ r)) = some r := by
      have := stripPrefixL_append (a :: as) r
      simpa using this
    rw [hsp] at h
    exact Option.noConfusion h
  | cons c l' ih =>
    intro h
    simp only [List.cons_append] at h
    rw [splitOnce] at h
    cases hsp : stripPrefixL sep (c :: (l' ++ sep ++ r)) with
    | some r0 =>
      rw [hsp] at h
      exact Option.noConfusion h
    | none =>
      rw [hsp, Option.map_eq_none'] at h
      apply ih
      simpa using h

theorem splitOnce_none_iff {sep : Str} (hsep : sep ≠ []) (s : Str) :
    splitOnce sep s = none ↔ ∀ l r, s ≠ l ++ sep ++ r := by
  constructor
  · intro h l r hd
    subst hd
    exact splitOnce_ne_none hsep h
  · intro h
    cases hs : splitOnce sep s with
    | none => rfl
    | some p =>
      exfalso
      obtain ⟨hd, _⟩ := splitOnce_eq_some (l := p.1) (r := p.2) (by simpa using hs)
      exact h p.1 p.2 hd

theorem basename_eq_self {p : Str} (h : ('/' : Char) ∉ p) : basename p = p := by
  unfold basename
  have : p.reverse.takeWhile (fun c => c != '/') = p.reverse := by
    rw [List.takeWhile_eq_self_iff]
    intro x hx
    have hxp : x ∈ p := List.mem_reverse.mp hx
    have : x ≠ '/' := fun hc => h (hc ▸ hxp)
    simpa [bne_iff_ne] using this
  rw [this, List.reverse_reverse]

theorem slash_not_mem_basename (p : Str) : ('/' : Char) ∉ basename p := by
  intro hmem
  unfold basename at hmem
  rw [List.mem_reverse] at hmem
  have := List.mem_takeWhile_imp hmem
  simp [bne_iff_ne] at this

theorem basename_basename (p : Str) : basename (basename p) = basename p :=
  basename_eq_self (slash_not_mem_basename p)

theorem stripPrefixL_isSome_shorten {p X Y : Str}
    (h : (stripPrefixL p (X ++ Y)).isSome) (hlen : p.length ≤ X.length) :
    (stripPrefixL p X).isSome := by
  induction p generalizing X Y with
  | nil => simp [stripPrefixL]
  | cons q ps ih =>
    cases X with
    | nil => simp at hlen
    | cons x xs =>
      simp only [List.cons_append, stripPrefixL] at h ⊢
      by_cases hq : q = x
      · rw [if_pos hq] at h ⊢
        exact ih h (by simpa using hlen)
      · rw [if_neg hq] at h
        simp at h

theorem countOcc_cons (pat : Str) (c : Char) (rest : Str) :
    countOcc pat (c :: rest) =
      (if (stripPrefixL pat (c :: rest)).isSome then 1 else 0) + countOcc pat rest := rfl

theorem countOcc_one_le (pat X Y : Str) : 1 ≤ countOcc pat (X ++ pat ++ Y) := by
  induction X with
  | nil =>
    cases hc : pat ++ Y with
    | nil =>
      have : stripPrefixL pat ([] : Str) = some Y := by rw [← hc]; exact stripPrefixL_append pat Y
      simp only [List.nil_append, hc, countOcc, this]
      simp
    | cons a as =>
      have : stripPrefixL pat (a :: as) = some Y := by rw [← hc]; exact stripPrefixL_append pat Y
      simp only [List.nil_append, hc, countOcc, this]
      simp
  | cons x xs ih =>
    have hcc : (x :: xs) ++ pat ++ Y = x :: (xs ++ pat ++ Y) := by simp
    rw [hcc, countOcc_cons]
    omega

theorem countOcc_two_of_early {A B l r : Str} (hlt : l.length < A.length)
    (hd : A ++ sepC ++ B = l ++ sepC ++ r) : 2 ≤ countOcc sepC (A ++ sepC) := by
  induction l generalizing A with
  | nil =>
    cases A with
    | nil => simp at hlt
    | cons a A' =>
      have hfirst : (stripPrefixL sepC (a :: (A' ++ sepC))).isSome := by
        have hd2 : ((a :: A') ++ sepC) ++ B = sepC ++ r := by
          simpa [List.append_assoc] using hd
        have hsome : (stripPrefixL sepC (((a :: A') ++ sepC) ++ B)).isSome := by
          rw [hd2, stripPrefixL_append]
          simp
        have := stripPrefixL_isSome_shorten hsome (by simp; omega)
        simpa using this
      have hrest : 1 ≤ countOcc sepC (A' ++ sepC) := by
        have := countOcc_one_le sepC A' []
        simpa using this
      have hcc : (a :: A') ++ sepC = a :: (A' ++ sepC) := by simp
      rw [hcc, countOcc_cons, if_pos hfirst]
      omega
  | cons c l' ih =>
    cases A with
    | nil => simp at hlt
    | cons a A' =>
      have hd2 : a :: (A' ++ sepC ++ B) = c :: (l' ++ sepC ++ r) := by
        simpa using hd
      have htl : A' ++ sepC ++ B = l' ++ sepC ++ r := (List.cons.injEq _ _ _ _ ▸ hd2).2
      have hlt2 : l'.length < A'.length := by
        simpa [Nat.succ_lt_succ_iff] using hlt
      have hih := ih hlt2 htl
      have hcc : (a :: A') ++ sepC = a :: (A' ++ sepC) := by simp
      rw [hcc, countOcc_cons]
      omega

theorem first_occ_min {A B l r : Str} (hcount : countOcc sepC (A ++ sepC) = 1)
    (hd : A ++ sepC ++ B = l ++ sepC ++ r) : A.length ≤ l.length := by
  by_contra hlt
  have := countOcc_two_of_early (Nat.lt_of_not_le hlt) hd
  omega

theorem splitOnce_append_min {sep : Str} (hsep : sep ≠ []) (B : Str) :
    ∀ A, (∀ l r, A ++ sep ++ B = l ++ sep ++ r → A.length ≤ l.length) →
      splitOnce sep (A ++ sep ++ B) = some (A, B) := by
  intro A
  induction A with
  | nil =>
    intro _
    obtain ⟨a, as, rfl⟩ : ∃ a as, sep = a :: as := by
      cases sep with
      | nil => exact absurd rfl hsep
      | cons a as => exact ⟨a, as, rfl⟩
    simp only [List.nil_append, List.cons_append]
    rw [splitOnce]
    have hsp : stripPrefixL (a :: as) (a :: (as ++ B)) = some B := by
      have := stripPrefixL_append (a :: as) B
      simpa using this
    rw [hsp]
  | cons a A' ih =>
    intro hmin
    have hmin' : ∀ l r, A' ++ sep ++ B = l ++ sep ++ r → A'.length ≤ l.length := by
      intro l r hdec
      have : (a :: A') ++ sep ++ B = (a :: l) ++ sep ++ r := by
        simp [hdec]
      have := hmin (a :: l) r this
      simpa using this
    have hrec := ih hmin'
    have hcons : (a :: A') ++ sep ++ B = a :: (A' ++ sep ++ B) := by simp
    rw [hcons, splitOnce]
    cases hsp : stripPrefixL sep (a :: (A' ++ sep ++ B)) with
    | some r0 =>
      exfalso
      have hdec : a :: (A' ++ sep ++ B) = sep ++ r0 := stripPrefixL_eq_some hsp
      have : (a :: A') ++ sep ++ B = [] ++ sep ++ r0 := by
        simpa using hdec
      have := hmin [] r0 this
      simp at this
    | none =>
      rw [hrec]
      rfl

theorem take_len_append (l₁ l₂ : Str) : (l₁ ++ l₂).take l₁.length = l₁ := by
  simp

theorem endsWith_append_zip (X : Str) : endsWith zipExt (X ++ zipExt) = true := by
  have h4 : zipExt.length = 4 := rfl
  simp only [endsWith, decide_eq_true_eq]
  constructor
  · simp
  · have h1 : (X ++ zipExt).length - zipExt.length = X.length := by
      simp only [List.length_append]
      omega
    rw [h1]
    simp

theorem parse_core_bad_suffix {name : Str} (hE : endsWith zipExt name = false) :
    parse_core name = .error "Zip file must end with .zip".toList := by
  unfold parse_core
  rw [hE]
  rfl

theorem parse_core_no_sep {name : Str} (hE : endsWith zipExt name = true)
    (hS : splitOnce sepC (name.take (name.length - 4)) = none) :
    parse_core name =
      .error "Filename must contain -custom- (e.g. mymodel-custom-v10.zip)".toList := by
  unfold parse_core
  rw [hE, hS]
  rfl

theorem parse_core_some {name m v : Str} (hE : endsWith zipExt name = true)
    (hS : splitOnce sepC (name.take (name.length - 4)) = some (m, v)) :
    parse_core name =
      if m = [] ∨ v = [] then
        .error "Invalid filename segments before/after -custom-".toList
      else .ok (m, v) := by
  unfold parse_core
  rw [hE, hS]
  rfl

theorem parse_core_split {A B : Str} (hA : A ≠ []) (hB : B ≠ [])
    (hcount : countOcc sepC (A ++ sepC) = 1) :
    parse_core ((A ++ sepC ++ B) ++ zipExt) = .ok (A, B) := by
  have h4 : zipExt.length = 4 := rfl
  have hE : endsWith zipExt ((A ++ sepC ++ B) ++ zipExt) = true := endsWith_append_zip _
  have htake : ((A ++ sepC ++ B) ++ zipExt).take (((A ++ sepC ++ B) ++ zipExt).length - 4) =
      A ++ sepC ++ B := by
    have h1 : ((A ++ sepC ++ B) ++ zipExt).length - 4 = (A ++ sepC ++ B).length := by
      simp only [List.length_append]
      omega
    rw [h1]
    exact take_len_append _ _
  have hsplit : splitOnce sepC (((A ++ sepC ++ B) ++ zipExt).take
      (((A ++ sepC ++ B) ++ zipExt).length - 4)) = some (A, B) := by
    rw [htake]
    exact splitOnce_append_min (by decide) B A (fun l r hd => first_occ_min hcount hd)
  rw [parse_core_some hE hsplit]
  rw [if_neg (by simp [hA, hB])]

/-- C4 counterexample: with A = "a-custom-b" and B = "c" (both non-empty), the
filename A ++ "-custom-" ++ B ++ ".zip" is NOT parsed into (A, B): the split is
taken at the first occurrence of the separator, yielding ("a", "b-custom-c"). -/
theorem nameParse_suffix_cex :
    ("a-custom-b".toList ≠ ([] : Str)) ∧ ("c".toList ≠ ([] : Str)) ∧
    parse_model_zip_name (("a-custom-b".toList ++ sepC ++ "c".toList) ++ zipExt) ≠
      .ok ("a-custom-b".toList, "c".toList) := by
  refine ⟨by decide, by decide, ?_⟩
  intro h
  have heval : parse_model_zip_name (("a-custom-b".toList ++ sepC ++ "c".toList) ++ zipExt) =
      .ok ("a".toList, "b-custom-c".toList) := by rfl
  rw [heval] at h
  simp only [Except.ok.injEq, Prod.mk.injEq] at h
  exact absurd h.1 (by decide)

/-- C4 (amended): for every filename A ++ "-custom-" ++ B ++ ".zip" with A and B
non-empty, slash-free, and such that "-custom-" occurs exactly once in
A ++ "-custom-" (so the separator written between A and B is the first
occurrence in the base name), parsing returns exactly (A, B).  Parsing fails
exactly when the basename lacks the ".zip" suffix, or the base contains no
"-custom-" occurrence (splitOnce is none precisely when no decomposition
around the separator exists), or the segment before or after the first
"-custom-" is empty. -/
theorem nameParse_amended :
    (∀ A B : Str, A ≠ [] → B ≠ [] → ('/' : Char) ∉ A → ('/' : Char) ∉ B →
      countOcc sepC (A ++ sepC) = 1 →
      parse_model_zip_name ((A ++ sepC ++ B) ++ zipExt) = .ok (A, B)) ∧
    (∀ p : Str, isErr (parse_model_zip_name p) = true ↔
      (endsWith zipExt (basename p) = false ∨ splitOnce sepC (baseOf p) = none ∨
        ∃ m v, splitOnce sepC (baseOf p) = some (m, v) ∧ (m = [] ∨ v = []))) ∧
    (∀ s : Str, splitOnce sepC s = none ↔ ∀ l r, s ≠ l ++ sepC ++ r) := by
  refine ⟨?_, ?_, ?_⟩
  · intro A B hA hB hsA hsB hcount
    have hnos : ('/' : Char) ∉ (A ++ sepC ++ B) ++ zipExt := by
      intro hmem
      simp only [List.mem_append] at hmem
      rcases hmem with ((hmem | hmem) | hmem) | hmem
      · exact hsA hmem
      · exact absurd hmem (by decide)
      · exact hsB hmem
      · exact absurd hmem (by decide)
    unfold parse_model_zip_name
    rw [basename_eq_self hnos]
    exact parse_core_split hA hB hcount
  · intro p
    unfold parse_model_zip_name
    cases hE : endsWith zipExt (basename p) with
    | false =>
      rw [parse_core_bad_suffix hE]
      exact iff_of_true rfl (Or.inl rfl)
    | true =>
      cases hS : splitOnce sepC (baseOf p) with
      | none =>
        rw [parse_core_no_sep hE hS]
        exact iff_of_true rfl (Or.inr (Or.inl rfl))
      | some mv =>
        obtain ⟨m, v⟩ := mv
        rw [parse_core_some hE hS]
        by_cases hmv : m = [] ∨ v = []
        · rw [if_pos hmv]
          exact iff_of_true rfl (Or.inr (Or.inr ⟨m, v, rfl, hmv⟩))
        · rw [if_neg hmv]
          apply iff_of_false
          · simp [isErr]
          · intro hcon
            rcases hcon with hcon | hcon | hcon
            · exact Bool.noConfusion hcon
            · exact Option.noConfusion hcon
            · obtain ⟨m', v', hsome, hor⟩ := hcon
              simp only [Option.some.injEq, Prod.mk.injEq] at hsome
              obtain ⟨hm, hv⟩ := hsome
              exact hmv (by rw [← hm, ← hv] at hor; exact hor)
  · intro s
    exact splitOnce_none_iff (by decide) s

/-- C4 amended witness: parsing "abc-custom-v1.zip" yields ("abc", "v1"). -/
theorem nameParse_amended_witness :
    parse_model_zip_name (("abc".toList ++ sepC ++ "v1".toList) ++ zipExt) =
      .ok ("abc".toList, "v1".toList) :=
  nameParse_amended.1 "abc".toList "v1".toList (by decide) (by decide) (by decide)
    (by decide) (by decide)

/-- C5: parse_model_zip_name splits on the FIRST occurrence of "-custom-":
whenever parsing succeeds with (m, v), the stripped base decomposes as
m ++ "-custom-" ++ v and m is shortest among all such decompositions; in
particular "a-custom-b-custom-c.zip" parses to ("a", "b-custom-c"). -/
theorem nameParse_first_occurrence :
    (∀ p m v : Str, parse_model_zip_name p = .ok (m, v) →
      baseOf p = m ++ sepC ++ v ∧
        ∀ l r, baseOf p = l ++ sepC ++ r → m.length ≤ l.length) ∧
    parse_model_zip_name "a-custom-b-custom-c.zip".toList =
      .ok ("a".toList, "b-custom-c".toList) := by
  constructor
  · intro p m v h
    unfold parse_model_zip_name at h
    cases hE : endsWith zipExt (basename p) with
    | false =>
      rw [parse_core_bad_suffix hE] at h
      exact Except.noConfusion h
    | true =>
      cases hS : splitOnce sepC (baseOf p) with
      | none =>
        rw [parse_core_no_sep hE hS] at h
        exact Except.noConfusion h
      | some mv =>
        obtain ⟨m0, v0⟩ := mv
        rw [parse_core_some hE hS] at h
        by_cases hmv : m0 = [] ∨ v0 = []
        · rw [if_pos hmv] at h
          exact Except.noConfusion h
        · rw [if_neg hmv] at h
          simp only [Except.ok.injEq, Prod.mk.injEq] at h
          obtain ⟨hm, hv⟩ := h
          subst hm; subst hv
          exact splitOnce_eq_some hS
  · rfl

/-- C5 witness: the base of "a-custom-b-custom-c.zip" decomposes around the
first separator occurrence as "a" ++ "-custom-" ++ "b-custom-c". -/
theorem nameParse_first_occurrence_witness :
    baseOf "a-custom-b-custom-c.zip".toList = "a".toList ++ sepC ++ "b-custom-c".toList :=
  (nameParse_first_occurrence.1 "a-custom-b-custom-c.zip".toList "a".toList
    "b-custom-c".toList (by rfl)).1

/-- C10: filename parsing depends only on the final path component: for every
path p, parsing p equals parsing (basename p), so directory components never
affect the parsed model name, the version, or whether parsing fails. -/
theorem parse_basename_invariant (p : Str) :
    parse_model_zip_name p = parse_model_zip_name (basename p) := by
  unfold parse_model_zip_name
  rw [basename_basename]

theorem mem_of_contains {fs : List Str} {c : Str} (h : fs.contains c = true) : c ∈ fs :=
  List.mem_of_elem_eq_true h

theorem not_mem_of_contains {fs : List Str} {c : Str} (h : fs.contains c = false) :
    c ∉ fs := by
  intro hm
  have h2 : fs.contains c = true := List.elem_eq_true_of_mem hm
  rw [h2] at h
  exact Bool.noConfusion h

/-- C2: output resolution checks the candidates in the fixed order
stem_vela.tflite, MOD00001.tfl, output.tflite and returns the first that
exists; in particular whenever the _vela name exists it is returned no matter
what else (e.g. MOD00001.tfl) exists. -/
theorem velaOutput_candidate_order :
    (∀ (fs : List Str) (workDir orig : Str),
      fs.contains (joinP workDir (stemOf orig ++ "_vela.tflite".toList)) = true →
      find_vela_output fs workDir orig =
        .ok (joinP workDir (stemOf orig ++ "_vela.tflite".toList), false)) ∧
    (∀ (fs : List Str) (workDir orig : Str),
      fs.contains (joinP workDir (stemOf orig ++ "_vela.tflite".toList)) = false →
      fs.contains (joinP workDir "MOD00001.tfl".toList) = true →
      find_vela_output fs workDir orig =
        .ok (joinP workDir "MOD00001.tfl".toList, false)) ∧
    (∀ (fs : List Str) (workDir orig : Str),
      fs.contains (joinP workDir (stemOf orig ++ "_vela.tflite".toList)) = false →
      fs.contains (joinP workDir "MOD00001.tfl".toList) = false →
      fs.contains (joinP workDir "output.tflite".toList) = true →
      find_vela_output fs workDir orig =
        .ok (joinP workDir "output.tflite".toList, false)) := by
  refine ⟨?_, ?_, ?_⟩
  · intro fs workDir orig h1
    have m1 := mem_of_contains h1
    simp only [String.toList] at m1
    unfold find_vela_output velaCandidates
    simp [List.find?_cons, m1]
  · intro fs workDir orig h1 h2
    have m1 := not_mem_of_contains h1
    have m2 := mem_of_contains h2
    simp only [String.toList] at m1 m2
    unfold find_vela_output velaCandidates
    simp [List.find?_cons, m1, m2]
  · intro fs workDir orig h1 h2 h3
    have m1 := not_mem_of_contains h1
    have m2 := not_mem_of_contains h2
    have m3 := mem_of_contains h3
    simp only [String.toList] at m1 m2 m3
    unfold find_vela_output velaCandidates
    simp [List.find?_cons, m1, m2, m3]

/-- C2 witness: with both wd/trained_vela.tflite and wd/MOD00001.tfl present,
resolution returns the _vela-named file. -/
theorem velaOutput_candidate_order_witness :
    find_vela_output
      [joinP "wd".toList ("trained".toList ++ "_vela.tflite".toList),
       joinP "wd".toList "MOD00001.tfl".toList]
      "wd".toList "trained.tflite".toList =
      .ok (joinP "wd".toList (stemOf "trained.tflite".toList ++ "_vela.tflite".toList),
        false) :=
  velaOutput_candidate_order.1
    [joinP "wd".toList ("trained".toList ++ "_vela.tflite".toList),
     joinP "wd".toList "MOD00001.tfl".toList]
    "wd".toList "trained.tflite".toList (by decide)

/-- C3: when none of the three candidates exists, resolution falls back to the
original input filename in the output directory, returning it with the warning
flag set; and when that does not exist either, it fails with the full list of
candidates tried. -/
theorem velaOutput_fallback_error :
    ∀ (fs : List Str) (workDir orig : Str),
      fs.contains (joinP workDir (stemOf orig ++ "_vela.tflite".toList)) = false →
      fs.contains (joinP workDir "MOD00001.tfl".toList) = false →
      fs.contains (joinP workDir "output.tflite".toList) = false →
      (fs.contains (joinP workDir orig) = true →
        find_vela_output fs workDir orig = .ok (joinP workDir orig, true)) ∧
      (fs.contains (joinP workDir orig) = false →
        find_vela_output fs workDir orig = .error (velaCandidates workDir orig)) := by
  intro fs workDir orig h1 h2 h3
  have m1 := not_mem_of_contains h1
  have m2 := not_mem_of_contains h2
  have m3 := not_mem_of_contains h3
  simp only [String.toList] at m1 m2 m3
  constructor
  · intro h4
    have m4 := mem_of_contains h4
    unfold find_vela_output velaCandidates
    simp [List.find?_cons, m1, m2, m3, m4]
  · intro h4
    have m4 := not_mem_of_contains h4
    unfold find_vela_output velaCandidates
    simp [List.find?_cons, m1, m2, m3, m4]

/-- C3 witness: with only wd/trained.tflite on disk, resolution returns the
original file with the warning flag set. -/
theorem velaOutput_fallback_error_witness :
    find_vela_output [joinP "wd".toList "trained.tflite".toList]
      "wd".toList "trained.tflite".toList =
      .ok (joinP "wd".toList "trained.tflite".toList, true) :=
  (velaOutput_fallback_error [joinP "wd".toList "trained.tflite".toList]
    "wd".toList "trained.tflite".toList (by decide) (by decide) (by decide)).1 (by decide)

theorem captureTo_append {body : Str} (h : cbrace ∉ body) :
    captureTo (body ++ [cbrace, ';']) = some body := by
  induction body with
  | nil => rfl
  | cons b bs ih =>
    simp only [List.mem_cons, not_or] at h
    obtain ⟨h1, h2⟩ := h
    have hb : ¬(b = cbrace) := fun hbc => h1 hbc.symm
    cases bs with
    | nil =>
      simp only [List.nil_append, List.cons_append]
      rw [captureTo, if_neg (fun hand => hb hand.1)]
      rfl
    | cons b2 bs2 =>
      have ihh := ih h2
      simp only [List.cons_append] at ihh ⊢
      rw [captureTo, if_neg (fun hand => hb hand.1), ihh]
      rfl

theorem matchTail_skip {c : Char} (h : ¬(c = '=')) (s : Str) :
    matchTail (c :: s) = matchTail s := by
  rw [matchTail, if_neg h]

theorem matchTail_eq {s g : Str} (h : matchAssign s = some g) :
    matchTail ('=' :: s) = some g := by
  rw [matchTail, if_pos rfl, h]

theorem matchAssign_run {body : Str} (h : cbrace ∉ body) :
    matchAssign (' ' :: obrace :: (body ++ [cbrace, ';'])) = some body := by
  unfold matchAssign
  have hdw : (' ' :: obrace :: (body ++ [cbrace, ';'])).dropWhile isPySpace
      = obrace :: (body ++ [cbrace, ';']) := by
    rw [List.dropWhile_cons, if_pos (by decide), List.dropWhile_cons, if_neg (by decide)]
  rw [hdw]
  show (if obrace = obrace then captureTo (body ++ [cbrace, ';']) else none) = some body
  rw [if_pos rfl]
  exact captureTo_append h

theorem joinQuoted_no_cbrace {ls : List Str} (h : ∀ l ∈ ls, cbrace ∉ l) :
    cbrace ∉ joinQuoted ls := by
  induction ls with
  | nil => simp [joinQuoted]
  | cons l ls ih =>
    cases ls with
    | nil =>
      simp only [joinQuoted]
      intro hmem
      rcases List.mem_cons.mp hmem with h1 | h1
      · exact absurd h1 (by decide)
      rcases List.mem_append.mp h1 with h2 | h2
      · exact h l (List.mem_cons_self l []) h2
      · exact absurd (List.mem_singleton.mp h2) (by decide)
    | cons l2 ls2 =>
      have ih2 := ih (fun x hx => h x (List.mem_cons_of_mem _ hx))
      simp only [joinQuoted] at ih2 ⊢
      intro hmem
      rcases List.mem_cons.mp hmem with h1 | h1
      · exact absurd h1 (by decide)
      rcases List.mem_append.mp h1 with h2 | h2
      · exact h l (List.mem_cons_self l _) h2
      rcases List.mem_cons.mp h2 with h3 | h3
      · exact absurd h3 (by decide)
      rcases List.mem_cons.mp h3 with h4 | h4
      · exact absurd h4 (by decide)
      rcases List.mem_cons.mp h4 with h5 | h5
      · exact absurd h5 (by decide)
      · exact ih2 h5

theorem findQuotedAux_run {l : Str} (hq : dquote ∉ l) (acc rest : Str) :
    findQuotedAux (l ++ rest) (some acc) = findQuotedAux rest (some (l.reverse ++ acc)) := by
  induction l generalizing acc with
  | nil => simp
  | cons c l' ih =>
    have hc : ¬(c = dquote) := fun hcd => hq (List.mem_cons.mpr (Or.inl hcd.symm))
    have hq' : dquote ∉ l' := fun hm => hq (List.mem_cons_of_mem _ hm)
    simp only [List.cons_append]
    simp only [findQuotedAux]
    rw [if_neg hc, ih hq']
    simp

theorem findQuoted_joinQuoted {ls : List Str}
    (h : ∀ l ∈ ls, l ≠ [] ∧ dquote ∉ l) :
    findQuoted (joinQuoted ls) = ls := by
  induction ls with
  | nil => rfl
  | cons l ls ih =>
    obtain ⟨hl, hlq⟩ := h l (List.mem_cons_self l ls)
    cases ls with
    | nil =>
      unfold findQuoted
      simp only [joinQuoted]
      simp only [findQuotedAux]
      rw [if_true]
      show findQuotedAux (l ++ [dquote]) (some []) = [l]
      rw [findQuotedAux_run hlq]
      simp only [List.append_nil]
      simp only [findQuotedAux]
      rw [if_true, if_neg (by simpa using hl)]
      simp [findQuotedAux]
    | cons l2 ls2 =>
      have ih2 := ih (fun x hx => h x (List.mem_cons_of_mem _ hx))
      unfold findQuoted at ih2 ⊢
      rw [show joinQuoted (l :: l2 :: ls2)
          = dquote :: l ++ dquote :: ',' :: ' ' :: joinQuoted (l2 :: ls2) from rfl]
      simp only [List.cons_append]
      simp only [findQuotedAux]
      rw [if_true, findQuotedAux_run hlq]
      simp only [List.append_nil]
      simp only [findQuotedAux]
      rw [if_true, if_neg (by simpa using hl)]
      rw [if_neg (by decide), if_neg (by decide)]
      rw [ih2]
      simp

theorem findDecl_of_matchAt {s g : Str} (hm : matchAt s = some g) (hne : s ≠ []) :
    findDecl s = some g := by
  cases s with
  | nil => exact absurd rfl hne
  | cons c rest =>
    rw [findDecl, hm]

theorem matchAt_mkHeader {ls : List Str} (hbr : cbrace ∉ joinQuoted ls) :
    matchAt (mkHeader ls) = some (joinQuoted ls) := by
  have h1 : stripPrefixL constCharStar (mkHeader ls) =
      some (' ' :: (catName ++ ("[] = ".toList ++
        (obrace :: (joinQuoted ls ++ [cbrace, ';']))))) := by
    unfold mkHeader
    exact stripPrefixL_append _ _
  have h2 : (' ' :: (catName ++ ("[] = ".toList ++
      (obrace :: (joinQuoted ls ++ [cbrace, ';']))))).dropWhile isPySpace
      = catName ++ ("[] = ".toList ++ (obrace :: (joinQuoted ls ++ [cbrace, ';']))) := by
    rw [List.dropWhile_cons, if_pos (by decide)]
    have hcat : catName ++ ("[] = ".toList ++ (obrace :: (joinQuoted ls ++ [cbrace, ';'])))
        = 'e' :: ("i_classifier_inferencing_categories".toList ++
            ("[] = ".toList ++ (obrace :: (joinQuoted ls ++ [cbrace, ';'])))) := rfl
    rw [hcat, List.dropWhile_cons, if_neg (by decide)]
  have h3 : stripPrefixL catName (catName ++ ("[] = ".toList ++
      (obrace :: (joinQuoted ls ++ [cbrace, ';'])))) =
      some ("[] = ".toList ++ (obrace :: (joinQuoted ls ++ [cbrace, ';']))) :=
    stripPrefixL_append _ _
  have h4 : matchTail ("[] = ".toList ++ (obrace :: (joinQuoted ls ++ [cbrace, ';'])))
      = some (joinQuoted ls) := by
    have hX : "[] = ".toList ++ (obrace :: (joinQuoted ls ++ [cbrace, ';']))
        = '[' :: ']' :: ' ' :: '=' :: ' ' :: obrace :: (joinQuoted ls ++ [cbrace, ';']) := rfl
    rw [hX, matchTail_skip (by decide), matchTail_skip (by decide),
      matchTail_skip (by decide)]
    exact matchTail_eq (matchAssign_run hbr)
  simp only [matchAt, h1, h2, h3]
  exact h4

theorem mkHeader_ne_nil (ls : List Str) : mkHeader ls ≠ [] := by
  have hmk : mkHeader ls = 'c' :: ("onst char*".toList ++ (' ' :: (catName ++
      ("[] = ".toList ++ (obrace :: (joinQuoted ls ++ [cbrace, ';'])))))) := rfl
  rw [hmk]
  exact List.cons_ne_nil _ _

theorem extract_mkHeader {ls : List Str} (hne : ls ≠ [])
    (h : ∀ l ∈ ls, l ≠ [] ∧ dquote ∉ l ∧ cbrace ∉ l) :
    extract_labels (mkHeader ls) = .ok ls := by
  have hbr : cbrace ∉ joinQuoted ls := joinQuoted_no_cbrace (fun l hl => (h l hl).2.2)
  have hfd : findDecl (mkHeader ls) = some (joinQuoted ls) :=
    findDecl_of_matchAt (matchAt_mkHeader hbr) (mkHeader_ne_nil ls)
  have hfq : findQuoted (joinQuoted ls) = ls :=
    findQuoted_joinQuoted (fun l hl => ⟨(h l hl).1, (h l hl).2.1⟩)
  unfold extract_labels
  simp only [hfd, hfq]
  rw [if_neg hne]

/-- C1: label extraction.  For every header rendered around a non-empty list of
labels (each non-empty and free of quote and closing-brace characters),
extraction returns exactly those labels in left-to-right order; the claim's
example header yields ["cat","dog","fish"]; the search tolerates newlines and
leading text (multiline example); and extraction fails exactly when the
declaration regex does not match or the matched initializer body yields no
quoted literal, those two cases surfacing the very same error value. -/
theorem labelExtraction_spec :
    (∀ ls : List Str, ls ≠ [] → (∀ l ∈ ls, l ≠ [] ∧ dquote ∉ l ∧ cbrace ∉ l) →
      extract_labels (mkHeader ls) = .ok ls) ∧
    extract_labels exHeader = .ok ["cat".toList, "dog".toList, "fish".toList] ∧
    extract_labels exHeaderMultiline = .ok ["cat".toList, "dog".toList] ∧
    (∀ content : Str, extract_labels content = .error () ↔
      (findDecl content = none ∨ ∃ g, findDecl content = some g ∧ findQuoted g = [])) ∧
    extract_labels exHeaderEmptyBody = .error () ∧
    extract_labels exNoDecl = .error () ∧
    extract_labels exHeaderEmptyBody = extract_labels exNoDecl := by
  refine ⟨fun ls hne h => extract_mkHeader hne h, by rfl, by rfl, ?_, by rfl, by rfl, by rfl⟩
  intro content
  cases hfd : findDecl content with
  | none =>
    have hred : extract_labels content = .error () := by
      unfold extract_labels
      rw [hfd]
      rfl
    rw [hred]
    exact iff_of_true rfl (Or.inl rfl)
  | some g =>
    have hred : extract_labels content =
        if findQuoted g = [] then .error () else .ok (findQuoted g) := by
      unfold extract_labels
      rw [hfd]
    rw [hred]
    by_cases hq : findQuoted g = []
    · rw [if_pos hq]
      exact iff_of_true rfl (Or.inr ⟨g, rfl, hq⟩)
    · rw [if_neg hq]
      apply iff_of_false
      · intro hcon
        exact Except.noConfusion hcon
      · intro hcon
        rcases hcon with hcon | hcon
        · exact Option.noConfusion hcon
        · obtain ⟨g', hg', hq'⟩ := hcon
          have hgg : g' = g := by
            injection hg' with h1
            exact h1.symm
          rw [hgg] at hq'
          exact hq hq'

/-- C1 witness: the generative round trip at the concrete label list ["cat"]. -/
theorem labelExtraction_spec_witness :
    extract_labels (mkHeader ["cat".toList]) = .ok ["cat".toList] :=
  labelExtraction_spec.1 ["cat".toList] (by decide) (by decide)

/-- C6 counterexample: the claim that the ToolMissing outcome and the
CompilationFailure outcome are never conflated into the same result value
fails on the code: the FileNotFoundError handler and the CalledProcessError
handler both make run_conversion return the very same value None. -/
theorem velaFailure_conflated_cex :
    vela_return .notFound = vela_return (.nonzeroExit 1 [] []) ∧
    vela_return .notFound = .returnedNone :=
  ⟨rfl, rfl⟩

/-- C6 (amended): a missing vela binary and a non-zero exit both yield the
same caller-visible result value (the returned None); the two kinds are
distinguishable only through the diagnostics emitted to the UI observer,
which always differ between the two kinds. -/
theorem velaFailure_return_messages :
    (∀ (rc : Int) (out err : Str), vela_return (.nonzeroExit rc out err) = .returnedNone) ∧
    vela_return .notFound = .returnedNone ∧
    (∀ (rc : Int) (out err : Str),
      vela_messages (.nonzeroExit rc out err) ≠ vela_messages .notFound) := by
  refine ⟨fun _ _ _ => rfl, rfl, ?_⟩
  intro rc out err hcon
  have hlen := congrArg List.length hcon
  simp [vela_messages] at hlen

/-- C6 amended witness: at exit code 1 the emitted diagnostics differ from the
missing-binary diagnostics. -/
theorem velaFailure_return_messages_witness :
    vela_messages (.nonzeroExit 1 [] []) ≠ vela_messages .notFound :=
  velaFailure_return_messages.2.2 1 [] []

/-- C7 counterexample: exceeding the timeout is NOT classified like an
ordinary compilation failure: the TimeoutExpired exception escapes both
except clauses and propagates uncaught, unlike the non-zero exit which is
caught and returns None. -/
theorem velaTimeout_unclassified_cex :
    vela_return .timeout = .uncaughtException ∧
    vela_return (.nonzeroExit 1 [] []) = .returnedNone ∧
    vela_return .timeout ≠ vela_return (.nonzeroExit 1 [] []) := by
  refine ⟨rfl, rfl, fun h => VelaReturn.noConfusion h⟩

/-- C7 (amended): the invocation passes a 120-second timeout to the
subprocess, and exceeding it raises an exception the invoker does not catch
(it propagates out of run_conversion as an unclassified error), unlike a
non-zero exit or a missing binary, which are caught and return None. -/
theorem velaTimeout_config :
    (∀ workDir tflitePath : Str, (velaCall workDir tflitePath).timeoutSeconds = 120) ∧
    vela_return .timeout = .uncaughtException ∧
    (∀ (rc : Int) (out err : Str), vela_return (.nonzeroExit rc out err) = .returnedNone) ∧
    vela_return .notFound = .returnedNone :=
  ⟨fun _ _ => rfl, rfl, fun _ _ _ => rfl, rfl⟩

/-- C7 amended witness: the timeout bound of the concrete invocation is 120
seconds. -/
theorem velaTimeout_config_witness :
    (velaCall "wd".toList "wd/trained.tflite".toList).timeoutSeconds = 120 :=
  velaTimeout_config.1 "wd".toList "wd/trained.tflite".toList

/-- C8: the two required-file checks strictly precede the subprocess
invocation: when the archive name parses but trained.tflite (respectively
model-parameters/model_variables.h) is missing among the extracted files,
run_conversion raises the missing-input error naming that file and the
subprocess event never occurs; conversely, whenever the subprocess event
occurs, both required files were present. -/
theorem checks_precede_subprocess :
    (∀ (env : Env) (mn ver : Str),
      parse_model_zip_name env.uploadName = .ok (mn, ver) →
      (env.extractedFiles.contains tfliteRel = false →
        (run_conversion env).2 =
          .raised (.missingInput (joinP (workDirOf mn ver) tfliteRel)) ∧
        Event.ranVela ∉ (run_conversion env).1) ∧
      (env.extractedFiles.contains tfliteRel = true →
        env.extractedFiles.contains varsRel = false →
        (run_conversion env).2 =
          .raised (.missingInput (joinP (workDirOf mn ver) varsRel)) ∧
        Event.ranVela ∉ (run_conversion env).1)) ∧
    (∀ env : Env, Event.ranVela ∈ (run_conversion env).1 →
      env.extractedFiles.contains tfliteRel = true ∧
      env.extractedFiles.contains varsRel = true) := by
  constructor
  · intro env mn ver hparse
    constructor
    · intro h1
      simp only [run_conversion, hparse, h1, Bool.false_eq_true, if_false]
      exact ⟨trivial, by decide⟩
    · intro h1 h2
      simp only [run_conversion, hparse, h1, h2, if_true, Bool.false_eq_true, if_false]
      exact ⟨trivial, by decide⟩
  · intro env h
    cases hparse : parse_model_zip_name env.uploadName with
    | error m =>
      simp only [run_conversion, hparse] at h
      exact absurd h (by decide)
    | ok mv =>
      cases h1 : env.extractedFiles.contains tfliteRel with
      | false =>
        simp only [run_conversion, hparse, h1, Bool.false_eq_true, if_false] at h
        exact absurd h (by decide)
      | true =>
        cases h2 : env.extractedFiles.contains varsRel with
        | false =>
          simp only [run_conversion, hparse, h1, h2, if_true, Bool.false_eq_true,
            if_false] at h
          exact absurd h (by decide)
        | true => exact ⟨rfl, rfl⟩

/-- C8 witness: an archive that extracts only trained.tflite halts with the
missing-input error for the variables header and never reaches the
subprocess. -/
theorem checks_precede_subprocess_witness :
    (run_conversion
      { uploadName := "m-custom-v1.zip".toList, extractedFiles := [tfliteRel],
        varsContent := [], velaOutcome := .timeout, velaWrites := [] }).2 =
      .raised (.missingInput (joinP (workDirOf "m".toList "v1".toList) varsRel)) ∧
    Event.ranVela ∉ (run_conversion
      { uploadName := "m-custom-v1.zip".toList, extractedFiles := [tfliteRel],
        varsContent := [], velaOutcome := .timeout, velaWrites := [] }).1 :=
  (checks_precede_subprocess.1
    { uploadName := "m-custom-v1.zip".toList, extractedFiles := [tfliteRel],
      varsContent := [], velaOutcome := .timeout, velaWrites := [] }
    "m".toList "v1".toList (by rfl)).2 (by rfl) (by rfl)

theorem isPrefixOf_append_self (p r : Str) : p.isPrefixOf (p ++ r) = true := by
  induction p with
  | nil => simp [List.isPrefixOf]
  | cons c ps ih => simp [List.isPrefixOf, ih]

theorem manifestEntries_cons (p c : Str) (st : List (Str × Str)) :
    manifestEntries ((p, c) :: st) =
      if manifestPre.isPrefixOf p then (p, c) :: manifestEntries st
      else manifestEntries st := by
  unfold manifestEntries
  rw [List.filter_cons]

theorem manifestEntries_nil_of_clean {st : List (Str × Str)}
    (h : ∀ e ∈ st, manifestPre.isPrefixOf e.1 = false) :
    manifestEntries st = [] := by
  unfold manifestEntries
  rw [List.filter_eq_nil_iff]
  intro e he
  simp [h e he]

theorem intercalate_newline_length : ∀ labels : List Str, labels ≠ [] →
    (List.intercalate ['\n'] labels).length =
      ((labels.map List.length).sum + labels.length) - 1 := by
  intro labels
  induction labels with
  | nil => intro h; exact absurd rfl h
  | cons l ls ih =>
    intro _
    cases ls with
    | nil =>
      simp [List.intercalate]
    | cons l2 ls2 =>
      have ih2 := ih (by simp)
      have hstep : List.intercalate ['\n'] (l :: l2 :: ls2)
          = l ++ ['\n'] ++ List.intercalate ['\n'] (l2 :: ls2) := by
        simp [List.intercalate, List.intersperse]
      rw [hstep]
      simp only [List.map_cons, List.sum_cons, List.length_cons, List.length_append,
        List.length_nil] at ih2 ⊢
      rw [ih2]
      omega

/-- C9 counterexample: with the non-empty label list ["cat"], packaging over a
work directory in which the extracted archive left a file under Manifest/
(Manifest/rogue.txt) produces a Manifest.zip holding three files, not exactly
two: make_archive archives the whole Manifest/ directory. -/
theorem manifest_rogue_cex :
    (["cat".toList] : List Str) ≠ [] ∧
    (manifestEntries (package [(manifestPre ++ "rogue.txt".toList, [])]
        (canonicalModelName "m".toList "v1".toList) "MODELBYTES".toList
        ["cat".toList])).length = 3 ∧
    (manifestEntries (package [(manifestPre ++ "rogue.txt".toList, [])]
        (canonicalModelName "m".toList "v1".toList) "MODELBYTES".toList
        ["cat".toList])).length ≠ 2 :=
  ⟨by decide, by rfl, by decide⟩

/-- C9 (amended): for every non-empty label list, packaging writes labels.txt
whose content is the labels joined by single newlines with nothing appended
(splitting the content on newlines recovers exactly the labels, and its
length is the sum of the label lengths plus exactly one separator between
consecutive labels); and provided the prior work-directory state holds no
file under Manifest/, the produced archive holds exactly the two files
Manifest/<model>-custom-<version>_vela.tflite and Manifest/labels.txt. -/
theorem manifest_packaging :
    ∀ (st : List (Str × Str)) (mn ver modelBytes : Str) (labels : List Str),
      labels ≠ [] →
      (∀ e ∈ st, manifestPre.isPrefixOf e.1 = false) →
      (∀ l ∈ labels, ('\n' : Char) ∉ l) →
      manifestEntries (package st (canonicalModelName mn ver) modelBytes labels) =
        [(manifestPre ++ labelsTxtRel, List.intercalate ['\n'] labels),
         (manifestPre ++ canonicalModelName mn ver, modelBytes)] ∧
      (List.intercalate ['\n'] labels).splitOn '\n' = labels ∧
      (List.intercalate ['\n'] labels).length =
        ((labels.map List.length).sum + labels.length) - 1 := by
  intro st mn ver modelBytes labels hne hclean hnl
  refine ⟨?_, List.splitOn_intercalate labels '\n' hnl hne, intercalate_newline_length labels hne⟩
  have hclab : (labelsTxtRel).length = 10 := rfl
  have hlen : (canonicalModelName mn ver).length = mn.length + ver.length + 20 := by
    have h8 : sepC.length = 8 := rfl
    have h12 : ("_vela.tflite".toList).length = 12 := rfl
    simp only [canonicalModelName, List.length_append, h8, h12]
    omega
  have hne2 : manifestPre ++ canonicalModelName mn ver ≠ manifestPre ++ labelsTxtRel := by
    intro hcon
    have hlencon := congrArg List.length hcon
    simp only [List.length_append, hlen, hclab] at hlencon
    omega
  have hq2keep : (!((manifestPre ++ canonicalModelName mn ver) ==
      (manifestPre ++ labelsTxtRel))) = true := by
    have hf : ((manifestPre ++ canonicalModelName mn ver) ==
        (manifestPre ++ labelsTxtRel)) = false := beq_eq_false_iff_ne.mpr hne2
    rw [hf]
    rfl
  have hclean1 : ∀ e ∈ setFile st labelsTxtRel (List.intercalate ['\n'] labels),
      manifestPre.isPrefixOf e.1 = false := by
    intro e he
    unfold setFile at he
    rcases List.mem_cons.mp he with he | he
    · rw [he]
      show manifestPre.isPrefixOf labelsTxtRel = false
      decide
    · exact hclean e (List.mem_filter.mp he).1
  unfold package
  unfold setFile
  rw [manifestEntries_cons, if_pos (isPrefixOf_append_self manifestPre labelsTxtRel)]
  rw [List.filter_cons, if_pos hq2keep]
  rw [manifestEntries_cons, if_pos (isPrefixOf_append_self manifestPre
    (canonicalModelName mn ver))]
  have hnil : manifestEntries (((setFile st labelsTxtRel
      (List.intercalate ['\n'] labels)).filter
        (fun e => !(e.1 == manifestPre ++ canonicalModelName mn ver))).filter
        (fun e => !(e.1 == manifestPre ++ labelsTxtRel))) = [] := by
    apply manifestEntries_nil_of_clean
    intro e he
    exact hclean1 e (List.mem_filter.mp (List.mem_filter.mp he).1).1
  unfold setFile at hnil
  rw [hnil]

/-- C9 amended witness: packaging over a clean store with labels cat and dog
yields exactly the two Manifest entries. -/
theorem manifest_packaging_witness :
    manifestEntries (package [] (canonicalModelName "m".toList "v1".toList)
        "BYTES".toList ["cat".toList, "dog".toList]) =
      [(manifestPre ++ labelsTxtRel,
        List.intercalate ['\n'] ["cat".toList, "dog".toList]),
       (manifestPre ++ canonicalModelName "m".toList "v1".toList, "BYTES".toList)] :=
  (manifest_packaging [] "m".toList "v1".toList "BYTES".toList
    ["cat".toList, "dog".toList] (by decide) (by decide) (by decide)).1

end WildlifeConv

